import Mathlib

/-!
# Verification of the RAG repository's core algorithms

A shallow embedding of the pure core of the repository:

* `src/query_utils.py`    — `normalize_query` (six `re.sub` rewrites + `strip`),
  modelled by hand-compiled deterministic scanners with Python's leftmost,
  non-overlapping, greedy-with-backtracking match semantics;
* `src/document_parsers.py` — `chunk_text` (sentence split + greedy chunk loop
  with overlap carry), `get_file_info`'s extension extraction,
  and the upload boundary's format check from `app.py` / `config.py`;
* `src/embeddings.py`     — `OpenAIEmbeddings.__init__` / `CohereEmbeddings.__init__`
  (dimension lookup and API-key validation);
* `src/vector_databases.py` — `FAISSDatabase` (`add`, `search`, `reset`, `get_stats`)
  with the FAISS `IndexFlatL2` index modelled as the list of stored vectors and
  exact search modelled as a stable sort of (row, squared-L2-distance) pairs;
* `app.py`                — the similarity-threshold filter and source assembly
  of `query_knowledge_base`.

Python `str` values are modelled as `String` (or `List Char` where proofs walk
the characters), Python `float` scores as `ℚ`, and a raised exception as a
`none`/`.error` result paired with whatever state mutations had already
happened (Python mutations persist when an exception propagates).
-/

namespace RAGSpec

/- Batteries marks the rational-number operations `@[irreducible]`, which
blocks `decide` on the concrete similarity computations below; scores are
small concrete rationals here, so unfolding them is cheap. -/
attribute [local semireducible] Rat.add Rat.sub Rat.mul Rat.inv

/-! ## Character classes (ASCII fragment of Python `re` classes) -/

/-- Python `\d` on ASCII input. -/
def isDigitCh (c : Char) : Bool := '0' ≤ c && c ≤ '9'

/-- Python `\s` (and the `str.strip` whitespace set) on ASCII input:
space, tab, newline, carriage return, vertical tab, form feed. -/
def isSpaceCh (c : Char) : Bool :=
  c = ' ' || c = '\t' || c = '\n' || c = '\r' || c = '\x0b' || c = '\x0c'

/-- Python `\w` on ASCII input: letters, digits, underscore. -/
def isWordCh (c : Char) : Bool :=
  ('a' ≤ c && c ≤ 'z') || ('A' ≤ c && c ≤ 'Z') || isDigitCh c || c = '_'

/-- Whether the position starting at `rest` begins with a word character
(end of string counts as non-word). -/
def nextIsWord : List Char → Bool
  | [] => false
  | c :: _ => isWordCh c

/-- Python `\b` between a last consumed character `last` and the remaining
input `rest`: a boundary holds iff exactly one side is a word character. -/
def boundaryAfter (last : Char) (rest : List Char) : Bool :=
  isWordCh last != nextIsWord rest

/-- Python `str.strip` of trailing whitespace, on `List Char`. -/
def pyRstrip (l : List Char) : List Char := (l.reverse.dropWhile isSpaceCh).reverse

/-- Python `str.strip` on `List Char`: drop whitespace from both ends. -/
def pyStrip (l : List Char) : List Char := (pyRstrip l).dropWhile isSpaceCh

/-! ## `src/query_utils.py` — `normalize_query`

Each `re.sub(pattern, repl, text)` call is modelled by a matcher
`List Char → Option (List Char × List Char)`: at the current position it
either fails, or returns the replacement text and the input remaining after
the match.  The driver `reSub` scans left to right, rewriting each leftmost
non-overlapping match, exactly like `re.sub`.  Every pattern below matches at
least one character, so a fuel of the input length suffices. -/

/-- `\.?\b` after a last consumed character `last`: try the greedy `.` first,
then the empty alternative, checking the word boundary each time.  Returns the
remaining input on success. -/
def dotBoundary (last : Char) (rest : List Char) : Option (List Char) :=
  match rest with
  | '.' :: rest' =>
    if boundaryAfter '.' rest' then some rest'
    else if boundaryAfter last rest then some rest
    else none
  | _ => if boundaryAfter last rest then some rest else none

/-- Rule 1: `re.sub(r'(\d)\s*[Bb][Hh][Kk]', r'\1 BHK', text)`. -/
def matchBHK : List Char → Option (List Char × List Char)
  | [] => none
  | d :: rest =>
    if isDigitCh d then
      match rest.dropWhile isSpaceCh with
      | b :: h :: k :: rest3 =>
        if (b = 'B' || b = 'b') && (h = 'H' || h = 'h') && (k = 'K' || k = 'k') then
          some (d :: " BHK".data, rest3)
        else none
      | _ => none
    else none

/-- Rule 2: `re.sub(r'(\d)\s*(?:sq\.?\s*ft\.?|sqft)', r'\1 sq.ft.', text, flags=re.IGNORECASE)`.
The `sqft` alternative is subsumed by `sq\.?\s*ft\.?` with both optionals
empty, and neither optional can steal a character the tail needs (`.` is not
whitespace and not `f`), so the scan is deterministic. -/
def matchSqft : List Char → Option (List Char × List Char)
  | [] => none
  | d :: rest =>
    if isDigitCh d then
      match rest.dropWhile isSpaceCh with
      | s :: q :: rest3 =>
        if (s = 's' || s = 'S') && (q = 'q' || q = 'Q') then
          let rest4 := match rest3 with | '.' :: t => t | _ => rest3
          match rest4.dropWhile isSpaceCh with
          | f :: t :: rest5 =>
            if (f = 'f' || f = 'F') && (t = 't' || t = 'T') then
              let rest6 := match rest5 with | '.' :: u => u | _ => rest5
              some (d :: " sq.ft.".data, rest6)
            else none
          | _ => none
        else none
      | _ => none
    else none

/-- `(?:ores?)?\.?\b` after `[Cc][Rr]` whose second character was `rc`:
alternatives in Python's backtracking priority order
(`ores` before `ore` before empty, greedy `.` inside each). -/
def croresTail (rc : Char) (rest : List Char) : Option (List Char) :=
  (match rest with
   | 'o' :: 'r' :: 'e' :: 's' :: r4 => dotBoundary 's' r4
   | _ => none) <|>
  (match rest with
   | 'o' :: 'r' :: 'e' :: r4 => dotBoundary 'e' r4
   | _ => none) <|>
  dotBoundary rc rest

/-- Rule 3: `re.sub(r'(\d)\s*[Cc][Rr](?:ores?)?\.?\b', r'\1 Crores', text)`. -/
def matchCr : List Char → Option (List Char × List Char)
  | [] => none
  | d :: rest =>
    if isDigitCh d then
      match rest.dropWhile isSpaceCh with
      | c :: r :: rest3 =>
        if (c = 'C' || c = 'c') && (r = 'R' || r = 'r') then
          match croresTail r rest3 with
          | some rest' => some (d :: " Crores".data, rest')
          | none => none
        else none
      | _ => none
    else none

/-- `(?:akhs?)?\.?\b` after `[Ll]` (the matched letter being `lc`). -/
def lakhsTail (lc : Char) (rest : List Char) : Option (List Char) :=
  (match rest with
   | 'a' :: 'k' :: 'h' :: 's' :: r4 => dotBoundary 's' r4
   | _ => none) <|>
  (match rest with
   | 'a' :: 'k' :: 'h' :: r4 => dotBoundary 'h' r4
   | _ => none) <|>
  dotBoundary lc rest

/-- Rule 4: `re.sub(r'(\d)\s*[Ll](?:akhs?)?\.?\b', r'\1 Lakhs', text)`. -/
def matchL : List Char → Option (List Char × List Char)
  | [] => none
  | d :: rest =>
    if isDigitCh d then
      match rest.dropWhile isSpaceCh with
      | l :: rest2 =>
        if l = 'L' || l = 'l' then
          match lakhsTail l rest2 with
          | some rest' => some (d :: " Lakhs".data, rest')
          | none => none
        else none
      | [] => none
    else none

/-- Rule 5: `re.sub(r'(?:INR|inr)\s*', 'Rs. ', text)` (case-sensitive
alternation: exactly `INR` or `inr`). -/
def matchINR : List Char → Option (List Char × List Char)
  | 'I' :: 'N' :: 'R' :: rest => some ("Rs. ".data, rest.dropWhile isSpaceCh)
  | 'i' :: 'n' :: 'r' :: rest => some ("Rs. ".data, rest.dropWhile isSpaceCh)
  | _ => none

/-- Rule 6: `re.sub(r'[Rr][Ss]\.?\s*(\d)', r'Rs. \1', text)`.  Deterministic:
if the greedy `.` or the whitespace run does not end at a digit, no
backtracking alternative can (`.` is neither whitespace nor a digit). -/
def matchRs : List Char → Option (List Char × List Char)
  | r :: s :: rest =>
    if (r = 'R' || r = 'r') && (s = 'S' || s = 's') then
      let rest2 := match rest with | '.' :: t => t | _ => rest
      match rest2.dropWhile isSpaceCh with
      | d :: rest4 => if isDigitCh d then some ("Rs. ".data ++ [d], rest4) else none
      | [] => none
    else none
  | _ => none

/-- Fuelled `re.sub` scan: at each position try the matcher; on a match emit
the replacement and continue after the match, otherwise emit the character
and move one position right. -/
def reSubAux (m : List Char → Option (List Char × List Char)) : Nat → List Char → List Char
  | 0, l => l
  | _ + 1, [] => []
  | fuel + 1, c :: rest =>
    match m (c :: rest) with
    | some (rep, rest') => rep ++ reSubAux m fuel rest'
    | none => c :: reSubAux m fuel rest

/-- `re.sub` over a whole input (all matches consume ≥ 1 character, so the
input length is enough fuel). -/
def reSub (m : List Char → Option (List Char × List Char)) (l : List Char) : List Char :=
  reSubAux m l.length l

/-- `normalize_query` from `src/query_utils.py`: the six rewrites applied in
source order, then `str.strip`. -/
def normalizeChars (l : List Char) : List Char :=
  pyStrip (reSub matchRs (reSub matchINR (reSub matchL (reSub matchCr
    (reSub matchSqft (reSub matchBHK l))))))

/-- `normalize_query(query)` on Python `str`. -/
def normalize_query (q : String) : String := String.mk (normalizeChars q.data)

/-! ## `src/document_parsers.py` — sentence split and `chunk_text`

`chunk_text(text, chunk_size=800, overlap=200)` splits on
`re.split(r'(?<=[.!?])\s+', text)`, strips and drops empty sentences, then
greedily packs sentences into chunks with an overlap carry-over.  Text is
modelled as `List Char`. -/

/-- A sentence-ending character for the split lookbehind `(?<=[.!?])`. -/
def isSentEnd (c : Char) : Bool := c = '.' || c = '!' || c = '?'

/-- Whether the most recently consumed character (head of the reversed
accumulator) is a sentence end; at a segment start the lookbehind fails. -/
def lastIsSentEnd : List Char → Bool
  | p :: _ => isSentEnd p
  | [] => false

/-- `re.split(r'(?<=[.!?])\s+', text)`: scan with the current segment
accumulated in reverse; a whitespace character right after `.`/`!`/`?` ends
the segment and the greedy `\s+` swallows the whole whitespace run.  Fuelled
so the kernel can evaluate it; every step consumes at least one character,
so a fuel of the input length is exact. -/
def splitSentencesAux : Nat → List Char → List Char → List (List Char)
  | 0, l, acc => [acc.reverse ++ l]
  | _ + 1, [], acc => [acc.reverse]
  | fuel + 1, c :: rest, acc =>
    if lastIsSentEnd acc && isSpaceCh c then
      acc.reverse :: splitSentencesAux fuel (rest.dropWhile isSpaceCh) []
    else
      splitSentencesAux fuel rest (c :: acc)

/-- `sentences = [s.strip() for s in re.split(...) if s.strip()]`. -/
def sentences (text : List Char) : List (List Char) :=
  ((splitSentencesAux text.length text []).map pyStrip).filter (fun s => !s.isEmpty)

/-- `' '.join(sentences)`. -/
def joinSp : List (List Char) → List Char
  | [] => []
  | [s] => s
  | s :: t :: rest => s ++ ' ' :: joinSp (t :: rest)

/-- The chunking loop state: finished chunks, the current sentence buffer,
and `current_length` (which the source maintains as Σ (len s + 1)). -/
structure ChunkState where
  chunks : List (List Char)
  cur : List (List Char)
  curLen : Nat

/-- The overlap carry loop: walk the finalized buffer backwards, keeping
trailing sentences while `overlap_length + len(s) + 1` stays within the
`overlap` budget (`insert(0, s)` is the cons onto the accumulator). -/
def buildOverlapAux (overlap : Nat) :
    List (List Char) → List (List Char) → Nat → List (List Char) × Nat
  | [], acc, n => (acc, n)
  | s :: rest, acc, n =>
    if overlap < n + s.length + 1 then (acc, n)
    else buildOverlapAux overlap rest (s :: acc) (n + s.length + 1)

/-- Build the overlap seed from a just-finalized buffer. -/
def buildOverlap (cur : List (List Char)) (overlap : Nat) : List (List Char) × Nat :=
  buildOverlapAux overlap cur.reverse [] 0

/-- One iteration of the `for sentence in sentences` loop of `chunk_text`. -/
def chunkStep (chunkSize overlap : Nat) (st : ChunkState) (sentence : List Char) :
    ChunkState :=
  if chunkSize < st.curLen + sentence.length + 1 ∧ st.cur ≠ [] then
    { chunks := st.chunks ++ [joinSp st.cur],
      cur := (buildOverlap st.cur overlap).1 ++ [sentence],
      curLen := (buildOverlap st.cur overlap).2 + sentence.length + 1 }
  else
    { chunks := st.chunks,
      cur := st.cur ++ [sentence],
      curLen := st.curLen + sentence.length + 1 }

/-- `chunk_text(text, chunk_size, overlap)` (source defaults 800 / 200):
split into sentences, run the greedy loop, flush the final buffer, and keep
only chunks whose `strip()` is non-empty. -/
def chunk_text (text : List Char) (chunkSize overlap : Nat) : List (List Char) :=
  let sents := sentences text
  if sents.isEmpty then []
  else
    let st := sents.foldl (chunkStep chunkSize overlap) ⟨[], [], 0⟩
    let chunks := if st.cur.isEmpty then st.chunks else st.chunks ++ [joinSp st.cur]
    chunks.filter (fun c => !(pyStrip c).isEmpty)

/-- Length of the longest sentence of `text` (0 when there are none). -/
def maxSentLen (text : List Char) : Nat :=
  ((sentences text).map List.length).foldr max 0

/-- Σ (len s + 1) over a sentence buffer — the quantity `current_length`
tracks in the source. -/
def weight (g : List (List Char)) : Nat := (g.map (fun s => s.length + 1)).sum

/-! ## `config.py` / `app.py` — upload format check -/

/-- `DOCUMENT_CONFIG["supported_formats"]` from `config.py`. -/
def supported_formats : List String := [".pdf", ".docx", ".xlsx", ".txt"]

/-- Python `str.lower` on one ASCII character. -/
def toLowerCh (c : Char) : Char :=
  if 'A' ≤ c && c ≤ 'Z' then Char.ofNat (c.toNat + 32) else c

/-- Python `str.split('.')`: split at every dot, keeping empty parts. -/
def splitOnDotAux : List Char → List Char → List (List Char)
  | [], acc => [acc.reverse]
  | c :: rest, acc =>
    if c = '.' then acc.reverse :: splitOnDotAux rest []
    else splitOnDotAux rest (c :: acc)

/-- `get_file_info`'s extension field from `src/document_parsers.py`:
`filename.split('.')[-1].lower() if '.' in filename else 'unknown'`. -/
def fileExtension (filename : String) : String :=
  if filename.data.contains '.' then
    String.mk (((splitOnDotAux filename.data []).getLastD []).map toLowerCh)
  else "unknown"

/-- The upload boundary's format check from `app.py`:
`f".{file_info['extension']}" in DOCUMENT_CONFIG["supported_formats"]`
(`False` means the upload is rejected with a 400 validation error). -/
def checkFormat (filename : String) : Bool :=
  supported_formats.contains ("." ++ fileExtension filename)

/-! ## `src/embeddings.py` — cloud provider construction -/

/-- `OpenAIEmbeddings.DIMENSION_MAP`. -/
def DIMENSION_MAP : List (String × Nat) :=
  [("text-embedding-3-small", 1536),
   ("text-embedding-3-large", 3072),
   ("text-embedding-ada-002", 1536)]

/-- The fields of a constructed `OpenAIEmbeddings` / `CohereEmbeddings`
relevant to the spec (the API client object is opaque). -/
structure CloudEmbeddingsState where
  model_name : String
  dimensions : Nat
deriving DecidableEq

/-- Python truthiness of the `api_key` argument (`if not api_key`):
falsy when absent or the empty string. -/
def pyFalsyKey : Option String → Bool
  | none => true
  | some s => s.isEmpty

/-- `OpenAIEmbeddings.__init__(model_name, api_key)`: raises `ValueError`
when the key is falsy, otherwise sets
`self.dimensions = self.DIMENSION_MAP.get(model_name, 1536)`. -/
def openAIEmbeddingsInit (model_name : String) (api_key : Option String) :
    Except String CloudEmbeddingsState :=
  if pyFalsyKey api_key then Except.error "OpenAI API key required"
  else Except.ok ⟨model_name, (DIMENSION_MAP.lookup model_name).getD 1536⟩

/-- `CohereEmbeddings.__init__(model_name, api_key)`: raises `ValueError`
when the key is falsy, otherwise hard-codes `self.dimensions = 1024`
whatever the model name is. -/
def cohereEmbeddingsInit (model_name : String) (api_key : Option String) :
    Except String CloudEmbeddingsState :=
  if pyFalsyKey api_key then Except.error "Cohere API key required"
  else Except.ok ⟨model_name, 1024⟩

/-! ## `src/vector_databases.py` — `FAISSDatabase`

The FAISS `IndexFlatL2` index is modelled as the list of stored vectors
(`List ℚ` rows); `index.add` appends rows and fails when a row's width
differs from the configured dimension; `index.search` is exact squared-L2
search, modelled as a stable ascending sort of (row index, distance) pairs.
`self.chunks` is the parallel list of `{id, text, metadata}` dicts. -/

/-- Metadata dicts are provider-opaque; modelled as key/value pairs. -/
abbrev Meta := List (String × String)

/-- One entry of `FAISSDatabase.chunks`. -/
structure Chunk where
  id : String
  text : String
  metadata : Meta
deriving DecidableEq

/-- The mutable state of a `FAISSDatabase`. -/
structure FAISSState where
  dimensions : Nat
  index_type : String
  chunks : List Chunk
  index : List (List ℚ)
deriving DecidableEq

/-- `FAISSDatabase.__init__(dimensions, index_type)`. -/
def faissInit (dimensions : Nat) (index_type : String) : FAISSState :=
  ⟨dimensions, index_type, [], []⟩

/-- `f"vec_{n}"`. -/
def mkVecId (n : Nat) : String := "vec_" ++ Nat.repr n

/-- The `for i, (text, meta) in enumerate(zip(texts, metadata))` loop of
`FAISSDatabase.add`: appends `{id: ids[i], text, metadata}` entries; `ids[i]`
raises `IndexError` when `i` is out of range, leaving the entries appended so
far in place (second component `false` records the raised exception). -/
def appendChunksLoop (ids : List String) :
    List (String × Meta) → Nat → List Chunk → List Chunk × Bool
  | [], _, acc => (acc, true)
  | (t, m) :: rest, i, acc =>
    match ids[i]? with
    | some vid => appendChunksLoop ids rest (i + 1) (acc ++ [⟨vid, t, m⟩])
    | none => (acc, false)

/-- `FAISSDatabase.add(embeddings, texts, metadata)`.  IDs are
`vec_<len(chunks) + i>` for `i < len(embeddings)`; chunk entries are appended
first, then `index.add(embeddings)` runs, failing when some row's width is
not the index dimension.  A `none` result models a raised exception; the
state component carries the mutations that had already happened. -/
def faissAdd (st : FAISSState) (embeddings : List (List ℚ)) (texts : List String)
    (metadata : List Meta) : Option (List String) × FAISSState :=
  let ids := (List.range embeddings.length).map (fun i => mkVecId (st.chunks.length + i))
  let res := appendChunksLoop ids (texts.zip metadata) 0 []
  let st1 : FAISSState := { st with chunks := st.chunks ++ res.1 }
  if res.2 = false then (none, st1)
  else if embeddings.all (fun v => v.length = st.dimensions) then
    (some ids, { st1 with index := st.index ++ embeddings })
  else (none, st1)

/-- One search hit `(id, text, metadata, similarity_score)`. -/
structure SearchResult where
  id : String
  text : String
  metadata : Meta
  score : ℚ
deriving DecidableEq

/-- `similarity = 1 / (1 + distance)` for the L2 index. -/
def similarityOfDist (d : ℚ) : ℚ := 1 / (1 + d)

/-- Squared L2 distance, as returned by FAISS `IndexFlatL2`. -/
def sqDist (q v : List ℚ) : ℚ := ((q.zip v).map (fun p => (p.1 - p.2) * (p.1 - p.2))).sum

/-- The `(row index, squared distance)` pairs FAISS exact search ranks:
every stored row paired with its distance to the query. -/
def faissPairs (st : FAISSState) (q : List ℚ) : List (Nat × ℚ) :=
  (List.range (st.index.map (sqDist q)).length).zip (st.index.map (sqDist q))

/-- The `min(top_k, ntotal)` nearest rows, in ascending distance order
(FAISS returns exact search results sorted by distance; ties keep row
order, modelled by a stable insertion sort). -/
def faissTop (st : FAISSState) (q : List ℚ) (topK : Nat) : List (Nat × ℚ) :=
  (List.insertionSort (fun a b => a.2 ≤ b.2) (faissPairs st q)).take
    (min topK st.index.length)

/-- The `if idx < len(self.chunks)` guard and result tuple of the search
loop: look the row index up in `chunks` and attach `1 / (1 + distance)`. -/
def faissHit (st : FAISSState) (p : Nat × ℚ) : Option SearchResult :=
  match st.chunks[p.1]? with
  | some ch => some ⟨ch.id, ch.text, ch.metadata, similarityOfDist p.2⟩
  | none => none

/-- `FAISSDatabase.search(query_embedding, top_k)`: empty store returns `[]`;
otherwise the nearest rows in ascending distance order, each kept only when
its index resolves in `self.chunks`. -/
def faissSearch (st : FAISSState) (q : List ℚ) (topK : Nat) : List SearchResult :=
  if st.index.length = 0 then [] else (faissTop st q topK).filterMap (faissHit st)

/-- `FAISSDatabase.reset()`: `index.reset()` and `self.chunks = []`. -/
def faissReset (st : FAISSState) : FAISSState := { st with chunks := [], index := [] }

/-- `FAISSDatabase.get_stats()`. -/
structure FAISSStats where
  provider : String
  index_type : String
  total_vectors : Nat
  dimensions : Nat
  total_chunks : Nat
deriving DecidableEq

/-- `get_stats` of a FAISS store. -/
def faissStats (st : FAISSState) : FAISSStats :=
  ⟨"faiss", st.index_type, st.index.length, st.dimensions, st.chunks.length⟩

/-! ## `app.py` — threshold filter and source assembly -/

/-- `RAG_CONFIG["similarity_threshold"]` (config default `0.15`). -/
def similarityThreshold : ℚ := 15 / 100

/-- `results = [r for r in results if r[3] > similarity_threshold]`. -/
def filterByThreshold (τ : ℚ) (rs : List SearchResult) : List SearchResult :=
  rs.filter (fun r => τ < r.score)

/-- One entry of the response's `sources` list. -/
structure Source where
  text : String
  filename : String
  similarity_score : ℚ
deriving DecidableEq

/-- `round(score, 3)`: round to the nearest thousandth, here as
half-up via floor division (Python uses banker's rounding at exact ties,
which no claim depends on). -/
def roundTo3 (q : ℚ) : ℚ :=
  mkRat (Int.fdiv (q * 1000 + 1 / 2).num (q * 1000 + 1 / 2).den) 1000

/-- One formatted source: truncated preview, filename (default
`"Unknown"`), rounded similarity. -/
def mkSource (r : SearchResult) : Source :=
  ⟨if 200 < r.text.length then r.text.take 200 ++ "..." else r.text,
   ((r.metadata.lookup "filename").getD "Unknown"),
   roundTo3 r.score⟩

/-- The sources list assembled by `query_knowledge_base`: threshold filter,
then the short-circuit `if not results` (empty sources), else one source per
surviving result. -/
def querySources (τ : ℚ) (rs : List SearchResult) : List Source :=
  let kept := filterByThreshold τ rs
  if kept.isEmpty then [] else kept.map mkSource

/-! ## Concrete states used by counterexamples and witnesses -/

/-- An empty 2-dimensional FAISS store. -/
def exSt0 : FAISSState := faissInit 2 "IndexFlatL2"

/-- An empty 1-dimensional FAISS store. -/
def exSt1 : FAISSState := faissInit 1 "IndexFlatL2"

/-- `exSt1` after one successful single-vector add. -/
def exSt2 : FAISSState := (faissAdd exSt1 [[1]] ["a"] [[]]).2

/-- A two-result candidate list: one above the default threshold, one below. -/
def exResults : List SearchResult :=
  [⟨"vec_0", "above", [("filename", "a.txt")], 1 / 2⟩,
   ⟨"vec_1", "below", [("filename", "a.txt")], 1 / 10⟩]

/-- The distance order used by the search model is total. -/
instance : IsTotal (Nat × ℚ) (fun a b => a.2 ≤ b.2) :=
  ⟨fun a b => le_total a.2 b.2⟩

/-- The distance order used by the search model is transitive. -/
instance : IsTrans (Nat × ℚ) (fun a b => a.2 ≤ b.2) :=
  ⟨fun _ _ _ h h2 => le_trans h h2⟩

/-! # Theorems

Helper lemmas first, then one theorem per claim (with its witness or
counterexample where required). -/

/-! ## Helper lemmas -/

/-- Membership in the orchestrator's threshold filter. -/
theorem mem_filterByThreshold (τ : ℚ) (r : SearchResult) (rs : List SearchResult) :
    r ∈ filterByThreshold τ rs ↔ r ∈ rs ∧ τ < r.score := by
  simp [filterByThreshold]

/-- Cancelling the dot prepended to an extension. -/
theorem dot_append_cancel (s t : String) : ("." ++ s = "." ++ t) ↔ s = t := by
  constructor
  · intro h
    have h2 : ("." ++ s).data = ("." ++ t).data := congrArg String.data h
    rw [String.data_append, String.data_append] at h2
    have h3 : s.data = t.data := by simpa using h2
    exact String.ext h3
  · intro h
    rw [h]

/-- Squared L2 distances are non-negative. -/
theorem sqDist_nonneg (q v : List ℚ) : 0 ≤ sqDist q v := by
  apply List.sum_nonneg
  intro x hx
  obtain ⟨p, -, rfl⟩ := List.mem_map.mp hx
  exact mul_self_nonneg _

/-- `1 / (1 + d)` is antitone on non-negative distances. -/
theorem similarityOfDist_antitone {a b : ℚ} (ha : 0 ≤ a) (hab : a ≤ b) :
    similarityOfDist b ≤ similarityOfDist a := by
  unfold similarityOfDist
  have h1 : (0:ℚ) < 1 + a := by linarith
  exact one_div_le_one_div_of_le h1 (by linarith)

/-! ## C5 — threshold filtering -/

/-- C5: a search candidate whose similarity is ≤ the threshold never appears
in the final sources list — the filter keeps exactly the candidates with
similarity strictly above the threshold (config default `0.15`), and every
assembled source originates from such a candidate. -/
theorem C5_threshold_filtering (τ : ℚ) (rs : List SearchResult) :
    (∀ r, r ∈ filterByThreshold τ rs ↔ r ∈ rs ∧ τ < r.score) ∧
    (∀ s ∈ querySources τ rs, ∃ r, r ∈ rs ∧ τ < r.score ∧ s = mkSource r) ∧
    similarityThreshold = 15 / 100 := by
  refine ⟨fun r => mem_filterByThreshold τ r rs, fun s hs => ?_, rfl⟩
  simp only [querySources] at hs
  by_cases h : (filterByThreshold τ rs).isEmpty = true
  · simp [h] at hs
  · rw [if_neg h] at hs
    obtain ⟨r, hr, rfl⟩ := List.mem_map.mp hs
    have h2 := (mem_filterByThreshold τ r rs).mp hr
    exact ⟨r, h2.1, h2.2, rfl⟩

/-- C5 witness: with the default threshold, the `0.5`-scoring candidate of
`exResults` survives into the sources and is traceable to its result. -/
theorem C5_threshold_filtering_witness :
    mkSource ⟨"vec_0", "above", [("filename", "a.txt")], 1 / 2⟩ ∈
      querySources similarityThreshold exResults ∧
    ∃ r, r ∈ exResults ∧ similarityThreshold < r.score ∧
      mkSource ⟨"vec_0", "above", [("filename", "a.txt")], 1 / 2⟩ = mkSource r :=
  ⟨by decide, (C5_threshold_filtering similarityThreshold exResults).2.1 _ (by decide)⟩

/-! ## C8 — upload format allow-list -/

/-- C8 counterexample: the claim says `.xls` is on the allow-list, but
`config.py`'s `supported_formats` is `[".pdf", ".docx", ".xlsx", ".txt"]`,
so an upload named `report.xls` fails the format check (the parser itself
would have supported it). -/
theorem C8_counterexample :
    fileExtension "report.xls" = "xls" ∧ checkFormat "report.xls" = false := by
  exact ⟨by decide, by decide⟩

/-- C8 (amended): the upload boundary accepts exactly the extensions
`.pdf`, `.docx`, `.xlsx`, `.txt` (case-insensitively, via the lowercased
last dot-component); `.xls` and everything else is rejected. -/
theorem C8_amended (filename : String) :
    checkFormat filename = true ↔
      fileExtension filename = "pdf" ∨ fileExtension filename = "docx" ∨
      fileExtension filename = "xlsx" ∨ fileExtension filename = "txt" := by
  have e1 : ("." : String) ++ "pdf" = ".pdf" := rfl
  have e2 : ("." : String) ++ "docx" = ".docx" := rfl
  have e3 : ("." : String) ++ "xlsx" = ".xlsx" := rfl
  have e4 : ("." : String) ++ "txt" = ".txt" := rfl
  simp only [checkFormat, supported_formats, List.contains_cons, List.contains_nil,
    Bool.or_eq_true, beq_iff_eq, Bool.false_eq_true, or_false]
  rw [← e1, ← e2, ← e3, ← e4, dot_append_cancel, dot_append_cancel, dot_append_cancel,
    dot_append_cancel]

/-- C8 witness: a `.pdf` upload passes the format check. -/
theorem C8_amended_witness :
    checkFormat "brochure.pdf" = true ∧ fileExtension "brochure.pdf" = "pdf" :=
  ⟨(C8_amended "brochure.pdf").mpr (Or.inl (by decide)), by decide⟩

/-! ## C4 — cloud embedding construction -/

/-- C4 counterexample: constructing a cloud provider with a model name absent
from the dimension table does not fail — OpenAI silently assumes the default
dimension 1536 (`DIMENSION_MAP.get(model_name, 1536)`), and Cohere always
assumes 1024. -/
theorem C4_counterexample :
    openAIEmbeddingsInit "not-a-known-model" (some "sk-test") =
      Except.ok ⟨"not-a-known-model", 1536⟩ ∧
    cohereEmbeddingsInit "not-a-known-model" (some "co-test") =
      Except.ok ⟨"not-a-known-model", 1024⟩ :=
  ⟨rfl, rfl⟩

/-- C4 (amended): cloud provider construction fails only on a missing/empty
API key; any model name is accepted, OpenAI falling back to the table lookup
with default 1536 and Cohere hard-coding 1024. -/
theorem C4_amended (model_name : String) (api_key : Option String) :
    (pyFalsyKey api_key = true →
      openAIEmbeddingsInit model_name api_key = Except.error "OpenAI API key required" ∧
      cohereEmbeddingsInit model_name api_key = Except.error "Cohere API key required") ∧
    (pyFalsyKey api_key = false →
      openAIEmbeddingsInit model_name api_key =
        Except.ok ⟨model_name, (DIMENSION_MAP.lookup model_name).getD 1536⟩ ∧
      cohereEmbeddingsInit model_name api_key = Except.ok ⟨model_name, 1024⟩) := by
  unfold openAIEmbeddingsInit cohereEmbeddingsInit
  constructor <;> intro h <;> simp [h]

/-- C4 witness: a present key and a known model give the table dimension. -/
theorem C4_amended_witness :
    pyFalsyKey (some "sk-test") = false ∧
    openAIEmbeddingsInit "text-embedding-3-large" (some "sk-test") =
      Except.ok ⟨"text-embedding-3-large", 3072⟩ :=
  ⟨rfl, by
    have h := ((C4_amended "text-embedding-3-large" (some "sk-test")).2 rfl).1
    simpa using h⟩

/-! ## C9 — crore shorthand normalization -/

/-- C9: the normalizer rewrites numeric crore shorthand — Scenario D's
`"1.5cr flat"` becomes `"1.5 Crores flat"`, and the `cr`/`crore`/`Cr`
variants after a digit all become `<n> Crores`. -/
theorem C9_crore_normalization :
    normalize_query "1.5cr flat" = "1.5 Crores flat" ∧
    normalize_query "10crores" = "10 Crores" ∧
    normalize_query "3 Cr" = "3 Crores" ∧
    normalize_query "2.5 crore house" = "2.5 Crores house" := by
  refine ⟨by decide, by decide, by decide, by decide⟩

/-! ## C10 — idempotence of the normalizer -/

/-- C10 counterexample: `normalize_query` is not idempotent.  On `"INrs5"`
the first pass rewrites `rs5` to `Rs. 5`, creating the new substring `INR`
(`"INRs. 5"`); the second pass then rewrites that `INR`, giving
`"Rs. s. 5"`. -/
theorem C10_counterexample :
    normalize_query (normalize_query "INrs5") ≠ normalize_query "INrs5" := by
  decide

/-- C10 (amended): `normalize_query` is not idempotent in general (the
`Rs.`-rewrite can create a fresh `INR` occurrence for the second pass), but
it is idempotent on its docstring's example inputs. -/
theorem C10_amended_idempotent_on_examples :
    normalize_query (normalize_query "3BHK") = normalize_query "3BHK" ∧
    normalize_query (normalize_query "1200sqft") = normalize_query "1200sqft" ∧
    normalize_query (normalize_query "1.5cr") = normalize_query "1.5cr" ∧
    normalize_query (normalize_query "50L") = normalize_query "50L" ∧
    normalize_query (normalize_query "INR 50") = normalize_query "INR 50" := by
  refine ⟨by decide, by decide, by decide, by decide, by decide⟩

/-! ## C3 — id uniqueness across reset -/

/-- C3 counterexample: the FAISS id counter is `len(self.chunks)`, which
`reset` clears, so the id `vec_0` assigned before a reset is assigned again
by the first add after the reset. -/
theorem C3_counterexample :
    (faissAdd exSt1 [[1]] ["a"] [[]]).1 = some ["vec_0"] ∧
    (faissAdd (faissReset exSt2) [[2]] ["b"] [[]]).1 = some ["vec_0"] := by
  exact ⟨by decide, by decide⟩

/-- C3 (amended): each successful FAISS add assigns the counter-based ids
`vec_<c>, …, vec_<c+n-1>` where `c` is the current chunk count — fresh and
distinct while the store only grows — but `reset` clears the chunk count to
zero, so counter-based ids are reused after a reset (only the
timestamp-based schemes of the cloud stores avoid that). -/
theorem C3_amended (st : FAISSState) (e : List (List ℚ)) (t : List String)
    (m : List Meta) (ids : List String)
    (h : (faissAdd st e t m).1 = some ids) :
    ids = (List.range e.length).map (fun i => mkVecId (st.chunks.length + i)) ∧
    (faissReset st).chunks.length = 0 := by
  refine ⟨?_, rfl⟩
  simp only [faissAdd] at h
  split at h
  · exact absurd h (by simp)
  · split at h
    · simpa using h.symm
    · exact absurd h (by simp)

/-- C3 witness: the amended id formula at a concrete add. -/
theorem C3_amended_witness :
    (faissAdd exSt1 [[1]] ["a"] [[]]).1 = some ["vec_0"] ∧
    (["vec_0"] = (List.range 1).map (fun i => mkVecId (exSt1.chunks.length + i)) ∧
      (faissReset exSt1).chunks.length = 0) :=
  ⟨by decide, C3_amended exSt1 [[1]] ["a"] [[]] ["vec_0"] (by decide)⟩

/-! ## C2 — atomicity of `add` -/

/-- A filterMap over the same list with pointwise-equal functions. -/
theorem filterMap_congr_mem {α β : Type} (f g : α → Option β) :
    ∀ l : List α, (∀ a ∈ l, f a = g a) → l.filterMap f = l.filterMap g
  | [], _ => rfl
  | a :: l, h => by
    rw [List.filterMap_cons, List.filterMap_cons, h a (List.mem_cons_self a l),
      filterMap_congr_mem f g l (fun x hx => h x (List.mem_cons_of_mem a hx))]

/-- Row indices ranked by the search all lie inside the index. -/
theorem faissTop_idx_lt (st : FAISSState) (q : List ℚ) (k : Nat) (p : Nat × ℚ)
    (hp : p ∈ faissTop st q k) : p.1 < st.index.length := by
  obtain ⟨a, b⟩ := p
  unfold faissTop at hp
  have hp1 := (List.take_sublist _ _).subset hp
  rw [List.mem_insertionSort] at hp1
  unfold faissPairs at hp1
  obtain ⟨h3, -⟩ := List.of_mem_zip hp1
  simpa using h3

/-- Appending chunk entries without touching the index leaves every search
result unchanged, provided every indexed row already had a chunk entry. -/
theorem faissSearch_append_chunks (st : FAISSState) (E : List Chunk) (q : List ℚ)
    (k : Nat) (hwf : st.index.length ≤ st.chunks.length) :
    faissSearch { st with chunks := st.chunks ++ E } q k = faissSearch st q k := by
  unfold faissSearch
  by_cases h0 : st.index.length = 0
  · rw [if_pos h0, if_pos h0]
  · rw [if_neg h0, if_neg h0]
    have htop : faissTop { st with chunks := st.chunks ++ E } q k = faissTop st q k := rfl
    rw [htop]
    apply filterMap_congr_mem
    intro p hp
    have hlt : p.1 < st.chunks.length :=
      lt_of_lt_of_le (faissTop_idx_lt st q k p hp) hwf
    unfold faissHit
    rw [List.getElem?_append_left hlt]

/-- C2 counterexample: `add` is not atomic — a dimension-mismatched batch
makes the FAISS `index.add` raise after the chunk entries were already
appended, so the store state differs from the pre-add state even though the
operation failed. -/
theorem C2_counterexample :
    (faissAdd exSt0 [[1]] ["hello"] [[("filename", "a.txt")]]).1 = none ∧
    (faissAdd exSt0 [[1]] ["hello"] [[("filename", "a.txt")]]).2 ≠ exSt0 := by
  exact ⟨by decide, by decide⟩

/-- C2 (amended): when `add` fails, the vector index — hence
`total_vectors` — is unchanged and the `chunks` list is only extended: the
batch entries appended before the failure remain, visible through
`get_stats().total_chunks`.  Moreover, provided every indexed row already
had a chunk entry, every `search` result — any query, any `top_k` — is also
unchanged, so the partial insert is invisible to search. -/
theorem C2_amended (st : FAISSState) (e : List (List ℚ)) (t : List String)
    (m : List Meta)
    (hfail : (faissAdd st e t m).1 = none) :
    (faissAdd st e t m).2.index = st.index ∧
    (faissStats (faissAdd st e t m).2).total_vectors = (faissStats st).total_vectors ∧
    (∃ extra, (faissAdd st e t m).2.chunks = st.chunks ++ extra) ∧
    (st.index.length ≤ st.chunks.length →
      ∀ (q : List ℚ) (k : Nat),
        faissSearch (faissAdd st e t m).2 q k = faissSearch st q k) := by
  have hst : (faissAdd st e t m).1 = none →
      (faissAdd st e t m).2 = { st with chunks := st.chunks ++
        (appendChunksLoop
          ((List.range e.length).map (fun i => mkVecId (st.chunks.length + i)))
          (t.zip m) 0 []).1 } := by
    simp only [faissAdd]
    split
    · intro _
      rfl
    · split
      · intro h
        exact absurd h (by simp)
      · intro _
        rfl
  have hE := hst hfail
  rw [hE]
  exact ⟨rfl, rfl, ⟨_, rfl⟩, fun hwf q k => faissSearch_append_chunks st _ q k hwf⟩

/-- C2 witness: a width-2 batch fails on the 1-dimensional store `exSt2`
(one stored vector, one chunk entry); the index is unchanged, the chunks
list is extended, and a dimension-consistent 1-wide query searches the same
both before and after the failed add. -/
theorem C2_amended_witness :
    (faissAdd exSt2 [[1, 2]] ["y"] [[]]).1 = none ∧
    (faissAdd exSt2 [[1, 2]] ["y"] [[]]).2.index = exSt2.index ∧
    (∃ extra, (faissAdd exSt2 [[1, 2]] ["y"] [[]]).2.chunks = exSt2.chunks ++ extra) ∧
    (exSt2.index.length ≤ exSt2.chunks.length ∧
      faissSearch (faissAdd exSt2 [[1, 2]] ["y"] [[]]).2 [0] 1 = faissSearch exSt2 [0] 1) :=
  ⟨by decide,
   (C2_amended exSt2 [[1, 2]] ["y"] [[]] (by decide)).1,
   (C2_amended exSt2 [[1, 2]] ["y"] [[]] (by decide)).2.2.1,
   by decide,
   (C2_amended exSt2 [[1, 2]] ["y"] [[]] (by decide)).2.2.2 (by decide) [0] 1⟩

/-! ## C6 — similarity ordering of search results -/

/-- C6: for the in-memory exact L2 store, `search` results are ordered
non-increasing in similarity score: FAISS returns ascending squared-L2
distances, and `1 / (1 + distance)` maps ascending non-negative distances to
non-increasing similarities. -/
theorem C6_similarity_ordering (st : FAISSState) (q : List ℚ) (k : Nat) :
    List.Pairwise (fun a b => b.score ≤ a.score) (faissSearch st q k) := by
  unfold faissSearch
  by_cases h0 : st.index.length = 0
  · rw [if_pos h0]
    exact List.Pairwise.nil
  · rw [if_neg h0]
    have hsorted : List.Pairwise (fun a b : Nat × ℚ => a.2 ≤ b.2) (faissTop st q k) := by
      unfold faissTop
      exact List.Pairwise.sublist (List.take_sublist _ _)
        (List.sorted_insertionSort (fun a b : Nat × ℚ => a.2 ≤ b.2) (faissPairs st q))
    have hnn : ∀ p ∈ faissTop st q k, (0:ℚ) ≤ p.2 := by
      intro p hp
      obtain ⟨a, b⟩ := p
      unfold faissTop at hp
      have hp1 := (List.take_sublist _ _).subset hp
      rw [List.mem_insertionSort] at hp1
      unfold faissPairs at hp1
      obtain ⟨-, h4⟩ := List.of_mem_zip hp1
      obtain ⟨v, -, rfl⟩ := List.mem_map.mp h4
      exact sqDist_nonneg q v
    have hsim : List.Pairwise
        (fun a b : Nat × ℚ => similarityOfDist b.2 ≤ similarityOfDist a.2)
        (faissTop st q k) :=
      hsorted.imp_of_mem (fun ha hb hab => similarityOfDist_antitone (hnn _ ha) hab)
    apply List.pairwise_filterMap.mpr
    refine hsim.imp_of_mem ?_
    intro a b ha hb hab x hx y hy
    unfold faissHit at hx hy
    revert hx hy
    cases st.chunks[a.1]? <;> cases st.chunks[b.1]? <;> intro hx hy <;> simp_all
    subst hx
    subst hy
    exact hab

/-! ## Chunker lemmas shared by C1 and C7 -/

/-- `weight` of the empty buffer. -/
theorem weight_nil : weight [] = 0 := rfl

/-- `weight` distributes over append. -/
theorem weight_append (a b : List (List Char)) : weight (a ++ b) = weight a + weight b := by
  simp [weight]

/-- `weight` of a cons. -/
theorem weight_cons (s : List Char) (g : List (List Char)) :
    weight (s :: g) = s.length + 1 + weight g := by
  simp only [weight, List.map_cons, List.sum_cons]

/-- A space-join of a non-empty buffer is one character shorter than the
buffer's weight (`k` sentences, `k - 1` separating spaces). -/
theorem joinSp_length : ∀ g : List (List Char), g ≠ [] → (joinSp g).length + 1 = weight g
  | [], h => absurd rfl h
  | [s], _ => by simp [joinSp, weight]
  | s :: t :: r, _ => by
    have ih := joinSp_length (t :: r) (by simp)
    simp only [joinSp, List.length_append, List.length_cons] at ih ⊢
    rw [weight_cons]
    omega

/-- The overlap loop never exceeds its budget. -/
theorem buildOverlapAux_le (ov : Nat) :
    ∀ (l acc : List (List Char)) (n : Nat), n ≤ ov → (buildOverlapAux ov l acc n).2 ≤ ov
  | [], _, _, h => h
  | s :: l, acc, n, h => by
    unfold buildOverlapAux
    split
    · exact h
    · exact buildOverlapAux_le ov l (s :: acc) (n + s.length + 1) (by omega)

/-- The overlap loop's running length is the weight of its accumulator. -/
theorem buildOverlapAux_weight (ov : Nat) :
    ∀ (l acc : List (List Char)) (n : Nat), n = weight acc →
      (buildOverlapAux ov l acc n).2 = weight (buildOverlapAux ov l acc n).1
  | [], _, _, h => h
  | s :: l, acc, n, h => by
    unfold buildOverlapAux
    split
    · exact h
    · exact buildOverlapAux_weight ov l (s :: acc) (n + s.length + 1)
        (by rw [weight_cons]; omega)

/-- Every sentence the overlap loop keeps comes from its input. -/
theorem buildOverlapAux_mem (ov : Nat) :
    ∀ (l acc : List (List Char)) (n : Nat) (x : List Char),
      x ∈ (buildOverlapAux ov l acc n).1 → x ∈ l ∨ x ∈ acc
  | [], _, _, _, h => Or.inr h
  | s :: l, acc, n, x, h => by
    unfold buildOverlapAux at h
    split at h
    · exact Or.inr h
    · rcases buildOverlapAux_mem ov l (s :: acc) (n + s.length + 1) x h with h1 | h1
      · exact Or.inl (List.mem_cons_of_mem s h1)
      · rcases List.mem_cons.mp h1 with h2 | h2
        · exact Or.inl (h2 ▸ List.mem_cons_self s l)
        · exact Or.inr h2

/-- The carried-over overlap stays within the `overlap` budget. -/
theorem buildOverlap_le (cur : List (List Char)) (ov : Nat) :
    (buildOverlap cur ov).2 ≤ ov :=
  buildOverlapAux_le ov cur.reverse [] 0 (Nat.zero_le ov)

/-- The carried-over length is the weight of the carried sentences. -/
theorem buildOverlap_weight (cur : List (List Char)) (ov : Nat) :
    (buildOverlap cur ov).2 = weight (buildOverlap cur ov).1 :=
  buildOverlapAux_weight ov cur.reverse [] 0 (by simp [weight])

/-- The overlap seed is drawn from the finalized buffer. -/
theorem buildOverlap_mem (cur : List (List Char)) (ov : Nat) (x : List Char)
    (h : x ∈ (buildOverlap cur ov).1) : x ∈ cur := by
  rcases buildOverlapAux_mem ov cur.reverse [] 0 x h with h1 | h1
  · exact List.mem_reverse.mp h1
  · cases h1

/-- Every sentence's length is bounded by `maxSentLen`. -/
theorem length_le_maxSentLen (text : List Char) :
    ∀ s ∈ sentences text, s.length ≤ maxSentLen text := by
  unfold maxSentLen
  generalize sentences text = l
  intro s hs
  induction l with
  | nil => cases hs
  | cons a l ih =>
    rw [List.map_cons, List.foldr_cons]
    rcases List.mem_cons.mp hs with h | h
    · subst h
      exact Nat.le_max_left _ _
    · exact Nat.le_trans (ih h) (Nat.le_max_right _ _)

/-- One chunking step preserves the size invariant: `curLen` tracks the
buffer weight, the buffer weight stays under `max chunkSize (overlap + M + 1)`
(for `M` bounding all sentence lengths), and every finished chunk is at
least one below that bound. -/
theorem chunkStep_inv (cs ov M : Nat) (st : ChunkState) (s : List Char)
    (hs : s.length ≤ M)
    (h1 : st.curLen = weight st.cur)
    (h2 : weight st.cur ≤ max cs (ov + M + 1))
    (h3 : ∀ c ∈ st.chunks, c.length + 1 ≤ max cs (ov + M + 1)) :
    (chunkStep cs ov st s).curLen = weight (chunkStep cs ov st s).cur ∧
    weight (chunkStep cs ov st s).cur ≤ max cs (ov + M + 1) ∧
    ∀ c ∈ (chunkStep cs ov st s).chunks, c.length + 1 ≤ max cs (ov + M + 1) := by
  unfold chunkStep
  split
  · rename_i hcond
    have hov_le := buildOverlap_le st.cur ov
    have hov_w := buildOverlap_weight st.cur ov
    refine ⟨?_, ?_, ?_⟩
    · dsimp only
      rw [weight_append, weight_cons, weight_nil]
      omega
    · dsimp only
      rw [weight_append, weight_cons, weight_nil]
      have hr := Nat.le_max_right cs (ov + M + 1)
      omega
    · intro c hc
      rcases List.mem_append.mp hc with h | h
      · exact h3 c h
      · have hc2 : c = joinSp st.cur := by simpa using h
        subst hc2
        rw [joinSp_length st.cur hcond.2]
        exact h2
  · rename_i hcond
    refine ⟨?_, ?_, h3⟩
    · dsimp only
      rw [weight_append, weight_cons, weight_nil]
      omega
    · dsimp only
      rw [weight_append, weight_cons, weight_nil]
      rcases not_and_or.mp hcond with h | h
      · have hl := Nat.le_max_left cs (ov + M + 1)
        omega
      · have hcur : st.cur = [] := not_not.mp h
        rw [hcur, weight_nil]
        have hr := Nat.le_max_right cs (ov + M + 1)
        omega

/-- The size invariant holds after folding any sentence list whose lengths
are bounded by `M`. -/
theorem chunkFold_inv (cs ov M : Nat) :
    ∀ (l : List (List Char)) (st : ChunkState),
      (∀ s ∈ l, s.length ≤ M) →
      st.curLen = weight st.cur →
      weight st.cur ≤ max cs (ov + M + 1) →
      (∀ c ∈ st.chunks, c.length + 1 ≤ max cs (ov + M + 1)) →
      (l.foldl (chunkStep cs ov) st).curLen = weight (l.foldl (chunkStep cs ov) st).cur ∧
      weight (l.foldl (chunkStep cs ov) st).cur ≤ max cs (ov + M + 1) ∧
      ∀ c ∈ (l.foldl (chunkStep cs ov) st).chunks, c.length + 1 ≤ max cs (ov + M + 1)
  | [], st, _, h1, h2, h3 => ⟨h1, h2, h3⟩
  | s :: l, st, hl, h1, h2, h3 => by
    rw [List.foldl_cons]
    obtain ⟨g1, g2, g3⟩ := chunkStep_inv cs ov M st s (hl s (List.mem_cons_self s l)) h1 h2 h3
    exact chunkFold_inv cs ov M l (chunkStep cs ov st s)
      (fun x hx => hl x (List.mem_cons_of_mem s hx)) g1 g2 g3

/-! ## C1 — chunk size soft bound -/

/-- C1 counterexample: with `chunk_size = overlap = 10`, the text
`"aaa. bbbbbbbbb."` produces the chunk `"aaa. bbbbbbbbb."` of length 15 —
it exceeds `chunk_size` yet consists of two sentences (the overlap carry
plus one new sentence), each individually within `chunk_size`, so the
claimed exception does not cover it. -/
theorem C1_counterexample :
    ¬ (∀ (text : List Char) (cs ov : Nat), ∀ c ∈ chunk_text text cs ov,
        c.length ≤ cs ∨ (c ∈ sentences text ∧ cs < c.length)) := by
  intro h
  have h2 := h "aaa. bbbbbbbbb.".data 10 10 "aaa. bbbbbbbbb.".data (by decide)
  exact absurd h2 (by decide)

/-- C1 (amended): a chunk can exceed `chunk_size` whenever the overlap
carry-over plus one long sentence does; the provable bound is that every
chunk's length is at most `max chunk_size (overlap + L)` where `L` is the
longest sentence length (so the only oversized chunks are a lone long
sentence, or an overlap carry followed by one long sentence). -/
theorem C1_amended (text : List Char) (cs ov : Nat) (c : List Char)
    (hc : c ∈ chunk_text text cs ov) :
    c.length ≤ max cs (ov + maxSentLen text) := by
  simp only [chunk_text] at hc
  by_cases hempty : (sentences text).isEmpty
  · rw [if_pos hempty] at hc
    cases hc
  · rw [if_neg hempty] at hc
    have hfold := chunkFold_inv cs ov (maxSentLen text) (sentences text) ⟨[], [], 0⟩
      (length_le_maxSentLen text) (by simp [weight]) (by simp [weight]) (by simp)
    obtain ⟨hw, hbound, hchunks⟩ := hfold
    have hc2 := List.mem_of_mem_filter hc
    have hcb : c.length + 1 ≤ max cs (ov + maxSentLen text + 1) := by
      by_cases hcur : ((sentences text).foldl (chunkStep cs ov) ⟨[], [], 0⟩).cur.isEmpty
      · rw [if_pos hcur] at hc2
        exact hchunks c hc2
      · rw [if_neg hcur] at hc2
        rcases List.mem_append.mp hc2 with h | h
        · exact hchunks c h
        · have hc3 : c = joinSp ((sentences text).foldl (chunkStep cs ov) ⟨[], [], 0⟩).cur := by
            simpa using h
          subst hc3
          rw [joinSp_length _ (by simpa [List.isEmpty_iff] using hcur)]
          exact hbound
    have hmax : max cs (ov + maxSentLen text + 1) ≤ max cs (ov + maxSentLen text) + 1 := by
      simp only [Nat.max_def]
      split <;> split <;> omega
    omega

/-- C1 witness: the amended bound at the counterexample input. -/
theorem C1_amended_witness :
    "aaa.".data ∈ chunk_text "aaa. bbbbbbbbb.".data 10 10 ∧
    "aaa.".data.length ≤ max 10 (10 + maxSentLen "aaa. bbbbbbbbb.".data) :=
  ⟨by decide, C1_amended "aaa. bbbbbbbbb.".data 10 10 "aaa.".data (by decide)⟩

/-! ## C7 — chunk coverage / no mid-sentence boundary -/

/-- The head surviving a `dropWhile` fails the predicate. -/
theorem headI_dropWhile_false (p : Char → Bool) :
    ∀ l : List Char, l.dropWhile p ≠ [] → p ((l.dropWhile p).headI) = false
  | [], h => absurd rfl h
  | c :: t, h => by
    rw [List.dropWhile_cons] at h ⊢
    by_cases hc : p c
    · rw [if_pos hc] at h ⊢
      exact headI_dropWhile_false p t h
    · rw [if_neg hc] at h ⊢
      simpa using hc

/-- An element failing the predicate survives `dropWhile`. -/
theorem mem_dropWhile_of_neg (p : Char → Bool) :
    ∀ (l : List Char) (x : Char), x ∈ l → p x = false → x ∈ l.dropWhile p
  | [], x, hx, _ => absurd hx (List.not_mem_nil x)
  | c :: t, x, hx, hpx => by
    rw [List.dropWhile_cons]
    by_cases hc : p c
    · rw [if_pos hc]
      rcases List.mem_cons.mp hx with h | h
      · subst h
        exact absurd hc (by simp [hpx])
      · exact mem_dropWhile_of_neg p t x h hpx
    · rw [if_neg hc]
      exact hx

/-- Stripping a string that starts with a non-space character cannot give
the empty string. -/
theorem strip_ne_nil_good (l : List Char) (hne : l ≠ [])
    (hh : isSpaceCh l.headI = false) : pyStrip l ≠ [] := by
  intro hcontra
  unfold pyStrip at hcontra
  have hall := List.dropWhile_eq_nil_iff.mp hcontra
  obtain ⟨c, t, rfl⟩ : ∃ c t, l = c :: t := by
    cases l
    · exact absurd rfl hne
    · exact ⟨_, _, rfl⟩
  have hh2 : isSpaceCh c = false := by simpa using hh
  have hc : c ∈ pyRstrip (c :: t) := by
    unfold pyRstrip
    rw [List.mem_reverse]
    apply mem_dropWhile_of_neg
    · rw [List.mem_reverse]
      exact List.mem_cons_self c t
    · exact hh2
  exact absurd (hall c hc) (by simp [hh2])

/-- Every produced sentence is non-empty and starts with a non-space
character (it is the non-empty `strip` of a raw segment). -/
theorem sentences_good (text : List Char) :
    ∀ s ∈ sentences text, s ≠ [] ∧ isSpaceCh s.headI = false := by
  intro s hs
  unfold sentences at hs
  have h1 := List.mem_filter.mp hs
  have hne : s ≠ [] := by simpa [List.isEmpty_iff] using h1.2
  obtain ⟨r, -, rfl⟩ := List.mem_map.mp h1.1
  refine ⟨hne, ?_⟩
  unfold pyStrip at hne ⊢
  exact headI_dropWhile_false isSpaceCh (pyRstrip r) hne

/-- A space-join of good sentences is non-empty and starts with a non-space
character. -/
theorem joinSp_good : ∀ g : List (List Char), g ≠ [] →
    (∀ s ∈ g, s ≠ [] ∧ isSpaceCh s.headI = false) →
    joinSp g ≠ [] ∧ isSpaceCh (joinSp g).headI = false
  | [], h, _ => absurd rfl h
  | [s], _, hg => by
    have := hg s (List.mem_cons_self s [])
    simpa [joinSp] using this
  | s :: t :: r, _, hg => by
    obtain ⟨hs_ne, hs_head⟩ := hg s (List.mem_cons_self s (t :: r))
    obtain ⟨a, as, rfl⟩ : ∃ a as, s = a :: as := by
      cases s
      · exact absurd rfl hs_ne
      · exact ⟨_, _, rfl⟩
    constructor
    · simp [joinSp]
    · simpa [joinSp] using hs_head

/-- A chunk joined from good sentences survives the final
`if c.strip()` filter. -/
theorem chunk_pred_true (g : List (List Char)) (hne : g ≠ [])
    (hgood : ∀ s ∈ g, s ≠ [] ∧ isSpaceCh s.headI = false) :
    (!(pyStrip (joinSp g)).isEmpty) = true := by
  obtain ⟨h1, h2⟩ := joinSp_good g hne hgood
  have h3 := strip_ne_nil_good (joinSp g) h1 h2
  simpa [List.isEmpty_iff] using h3

/-- One chunking step preserves the grouping invariant: finished chunks are
space-joins of non-empty groups of sentences from `S`, the buffer holds only
sentences from `S`, and every sentence processed so far is in a finished
group or in the buffer. -/
theorem chunkStep_groups (cs ov : Nat) (S : List (List Char)) (st : ChunkState)
    (s : List Char) (P : List (List Char))
    (hsS : s ∈ S)
    (hcurS : ∀ x ∈ st.cur, x ∈ S)
    (h : ∃ groups : List (List (List Char)), st.chunks = groups.map joinSp ∧
      (∀ g ∈ groups, g ≠ [] ∧ ∀ x ∈ g, x ∈ S) ∧
      (∀ x ∈ P, (∃ g ∈ groups, x ∈ g) ∨ x ∈ st.cur)) :
    (∀ x ∈ (chunkStep cs ov st s).cur, x ∈ S) ∧
    ∃ groups : List (List (List Char)), (chunkStep cs ov st s).chunks = groups.map joinSp ∧
      (∀ g ∈ groups, g ≠ [] ∧ ∀ x ∈ g, x ∈ S) ∧
      (∀ x ∈ P ++ [s], (∃ g ∈ groups, x ∈ g) ∨ x ∈ (chunkStep cs ov st s).cur) := by
  obtain ⟨groups, hchunks, hgood, hcover⟩ := h
  unfold chunkStep
  split
  · rename_i hcond
    refine ⟨?_, groups ++ [st.cur], ?_, ?_, ?_⟩
    · intro x hx
      dsimp only at hx
      rcases List.mem_append.mp hx with hx | hx
      · exact hcurS x (buildOverlap_mem st.cur ov x hx)
      · have hxs : x = s := by simpa using hx
        exact hxs ▸ hsS
    · dsimp only
      simp [hchunks]
    · intro g hg
      rcases List.mem_append.mp hg with hg | hg
      · exact hgood g hg
      · have hgc : g = st.cur := by simpa using hg
        subst hgc
        exact ⟨hcond.2, hcurS⟩
    · intro x hx
      dsimp only
      rcases List.mem_append.mp hx with hx | hx
      · rcases hcover x hx with ⟨g, hg, hxg⟩ | hx2
        · exact Or.inl ⟨g, List.mem_append_left _ hg, hxg⟩
        · exact Or.inl ⟨st.cur, List.mem_append_right _ (by simp), hx2⟩
      · have hxs : x = s := by simpa using hx
        subst hxs
        exact Or.inr (List.mem_append_right _ (by simp))
  · rename_i hcond
    refine ⟨?_, groups, ?_, hgood, ?_⟩
    · intro x hx
      dsimp only at hx
      rcases List.mem_append.mp hx with hx | hx
      · exact hcurS x hx
      · have hxs : x = s := by simpa using hx
        exact hxs ▸ hsS
    · dsimp only
      exact hchunks
    · intro x hx
      dsimp only
      rcases List.mem_append.mp hx with hx | hx
      · rcases hcover x hx with h2 | h2
        · exact Or.inl h2
        · exact Or.inr (List.mem_append_left _ h2)
      · have hxs : x = s := by simpa using hx
        subst hxs
        exact Or.inr (List.mem_append_right _ (by simp))

/-- The grouping invariant holds after folding a sentence list drawn
from `S`. -/
theorem chunkFold_groups (cs ov : Nat) (S : List (List Char)) :
    ∀ (l : List (List Char)) (st : ChunkState) (P : List (List Char)),
      (∀ s ∈ l, s ∈ S) →
      (∀ s ∈ st.cur, s ∈ S) →
      (∃ groups : List (List (List Char)), st.chunks = groups.map joinSp ∧
        (∀ g ∈ groups, g ≠ [] ∧ ∀ x ∈ g, x ∈ S) ∧
        (∀ x ∈ P, (∃ g ∈ groups, x ∈ g) ∨ x ∈ st.cur)) →
      (∀ s ∈ (l.foldl (chunkStep cs ov) st).cur, s ∈ S) ∧
      ∃ groups : List (List (List Char)), (l.foldl (chunkStep cs ov) st).chunks = groups.map joinSp ∧
        (∀ g ∈ groups, g ≠ [] ∧ ∀ x ∈ g, x ∈ S) ∧
        (∀ x ∈ P ++ l, (∃ g ∈ groups, x ∈ g) ∨ x ∈ (l.foldl (chunkStep cs ov) st).cur) := by
  intro l
  induction l with
  | nil =>
    intro st P _ hcur h
    simp only [List.foldl_nil, List.append_nil]
    exact ⟨hcur, h⟩
  | cons s l ih =>
    intro st P hl hcur h
    rw [List.foldl_cons]
    have hstep := chunkStep_groups cs ov S st s P (hl s (List.mem_cons_self s l)) hcur h
    have hrec := ih (chunkStep cs ov st s) (P ++ [s])
      (fun x hx => hl x (List.mem_cons_of_mem s hx)) hstep.1 hstep.2
    rw [List.append_assoc, List.singleton_append] at hrec
    exact hrec

/-- C7: every chunk is a space-join of whole sentences of the input (no
chunk boundary falls inside a sentence), and every sentence of the boundary
split appears in at least one chunk's sentence group. -/
theorem C7_chunk_coverage (text : List Char) (cs ov : Nat) :
    ∃ groups : List (List (List Char)),
      chunk_text text cs ov = groups.map joinSp ∧
      (∀ g ∈ groups, g ≠ [] ∧ ∀ s ∈ g, s ∈ sentences text) ∧
      (∀ s ∈ sentences text, ∃ g ∈ groups, s ∈ g) := by
  simp only [chunk_text]
  by_cases hempty : (sentences text).isEmpty
  · rw [if_pos hempty]
    have hnil : sentences text = [] := by simpa [List.isEmpty_iff] using hempty
    refine ⟨[], rfl, by simp, ?_⟩
    rw [hnil]
    intro s hs
    cases hs
  · rw [if_neg hempty]
    set st : ChunkState := (sentences text).foldl (chunkStep cs ov) ⟨[], [], 0⟩ with hstdef
    obtain ⟨hcurS, groups, hchunks, hgood, hcover⟩ :=
      chunkFold_groups cs ov (sentences text) (sentences text) ⟨[], [], 0⟩ []
        (fun s hs => hs) (by simp) ⟨[], rfl, by simp, by simp⟩
    simp only [List.nil_append] at hcover
    rw [← hstdef] at hcurS hchunks hcover
    by_cases hcur : st.cur.isEmpty
    · rw [if_pos hcur]
      have hcurnil : st.cur = [] := by simpa [List.isEmpty_iff] using hcur
      refine ⟨groups, ?_, hgood, ?_⟩
      · rw [hchunks]
        rw [List.filter_eq_self.mpr]
        intro c hcm
        obtain ⟨g, hgm, rfl⟩ := List.mem_map.mp hcm
        have hgg := hgood g hgm
        exact chunk_pred_true g hgg.1 (fun x hx => sentences_good text x (hgg.2 x hx))
      · intro s hs
        rcases hcover s hs with h | h
        · exact h
        · rw [hcurnil] at h
          cases h
    · rw [if_neg hcur]
      have hcn : st.cur ≠ [] := by simpa [List.isEmpty_iff] using hcur
      refine ⟨groups ++ [st.cur], ?_, ?_, ?_⟩
      · have hmap : st.chunks ++ [joinSp st.cur] = (groups ++ [st.cur]).map joinSp := by
          simp [hchunks]
        rw [hmap]
        rw [List.filter_eq_self.mpr]
        intro c hcm
        obtain ⟨g, hgm, rfl⟩ := List.mem_map.mp hcm
        rcases List.mem_append.mp hgm with hg | hg
        · have hgg := hgood g hg
          exact chunk_pred_true g hgg.1 (fun x hx => sentences_good text x (hgg.2 x hx))
        · have hgc : g = st.cur := by simpa using hg
          subst hgc
          exact chunk_pred_true st.cur hcn (fun x hx => sentences_good text x (hcurS x hx))
      · intro g hg
        rcases List.mem_append.mp hg with hg | hg
        · exact hgood g hg
        · have hgc : g = st.cur := by simpa using hg
          subst hgc
          exact ⟨hcn, hcurS⟩
      · intro s hs
        rcases hcover s hs with ⟨g, hgm, hsg⟩ | h
        · exact ⟨g, List.mem_append_left _ hgm, hsg⟩
        · exact ⟨st.cur, List.mem_append_right _ (by simp), h⟩

/-- C7 witness: the coverage decomposition at a concrete two-sentence
input. -/
theorem C7_chunk_coverage_witness :
    ∃ groups : List (List (List Char)),
      chunk_text "Hi there. Bye.".data 8 4 = groups.map joinSp ∧
      (∀ g ∈ groups, g ≠ [] ∧ ∀ s ∈ g, s ∈ sentences "Hi there. Bye.".data) ∧
      (∀ s ∈ sentences "Hi there. Bye.".data, ∃ g ∈ groups, s ∈ g) :=
  C7_chunk_coverage "Hi there. Bye.".data 8 4

/-- C6 witness: ordering at a concrete store and query. -/
theorem C6_similarity_ordering_witness :
    List.Pairwise (fun a b => b.score ≤ a.score) (faissSearch exSt2 [1] 3) :=
  C6_similarity_ordering exSt2 [1] 3

end RAGSpec
